import Mathlib

/-!
Verification of the chunking / identity / batching subsystem of the
AI_Audit_Compliance repository (two pipelines: `vectorize.py`, the HTML
case-law ingester, class `LegalCaseVectorDB`; and the federal-law PDF
ingester, class `FederalLawIngestion`).

Texts are modelled as `List Char` (Python `str` is a sequence of unicode
code points, indexed positionally).  Python `str.strip()` is modelled with
`Char.isWhitespace`, which covers the whitespace characters occurring in
the texts under consideration.
-/

/-- Python `text[a:b]` for `0 ≤ a ≤ b` (out-of-range clamps, `b < a` gives
the empty string). -/
def pySlice (text : List Char) (a b : Nat) : List Char :=
  (text.drop a).take (b - a)

/-- Python `str.strip()`: remove leading and trailing whitespace. -/
def pyStrip (l : List Char) : List Char :=
  ((l.dropWhile Char.isWhitespace).reverse.dropWhile Char.isWhitespace).reverse

/-- Does `sub` occur in `text` starting at position `p`? -/
def matchAt (sub text : List Char) (p : Nat) : Bool :=
  decide ((text.drop p).take sub.length = sub)

/-- Python `text.rfind(sub, a, b)`: the greatest position `p ≥ a` such that
`sub` occurs at `p` entirely inside `text[a:b]` (`b` clamps to the text
length); `none` when there is no occurrence (Python returns `-1`).
Valid for `a ≥ 0`; callers below only pass non-negative clamped bounds. -/
def pyRfind (sub text : List Char) (a b : Nat) : Option Nat :=
  ((List.range (min b text.length)).filter
    (fun p => decide (a ≤ p) && decide (p + sub.length ≤ min b text.length)
      && matchAt sub text p)).max?

/-- The `for punct in [...]` loop of both `chunk_text` variants: try the
delimiters in order, `break` at the first one `rfind` locates, returning
its position and length. -/
def findDelim : List (List Char) → List Char → Nat → Nat → Option (Nat × Nat)
  | [], _, _, _ => none
  | d :: ds, text, a, b =>
    match pyRfind d text a b with
    | some p => some (p, d.length)
    | none => findDelim ds text a b

/-- One iteration's tentative end with boundary snapping: `end = start +
chunk_size`; if `end < len(text)`, snap to the first delimiter found by
`rfind` in the window `[end - back, end + fwd)` (HTML variant: `back = 0`,
`fwd = 150`; PDF variant: `back = fwd = 200`).  The `Nat` subtraction
`e - back` models Python's `end - back` for `end ≥ back`, which holds
whenever `back ≤ chunk_size` (true for both variants' constants). -/
def computeEnd (delims : List (List Char)) (chunk_size back fwd : Nat)
    (text : List Char) (start : Nat) : Nat :=
  if start + chunk_size < text.length then
    match findDelim delims text (start + chunk_size - back)
        (start + chunk_size + fwd) with
    | some (p, len) => p + len
    | none => start + chunk_size
  else start + chunk_size

/-- The advance rule of the `while` loop:
`start = end - overlap if end < text_length else text_length`. -/
def nextStart (overlap : Nat) (text : List Char) (e : Nat) : Nat :=
  if e < text.length then e - overlap else text.length

/-- The `while start < text_length` loop of `chunk_text`, recorded as the
`(start, end)` span of every iteration.  The loop in the source has no
termination guarantee for arbitrary parameters, so the recursion is
fuel-indexed: `none` means the fuel ran out with the cursor still inside
the text (the concrete fuel `length + 1` is proved sufficient for the
production parameters below). -/
def chunkSpansAux (delims : List (List Char)) (chunk_size overlap back fwd : Nat)
    (text : List Char) : Nat → Nat → Option (List (Nat × Nat))
  | 0, start => if start < text.length then none else some []
  | fuel + 1, start =>
    if start < text.length then
      (chunkSpansAux delims chunk_size overlap back fwd text fuel
          (nextStart overlap text
            (computeEnd delims chunk_size back fwd text start))).map
        (fun rest => (start, computeEnd delims chunk_size back fwd text start) :: rest)
    else some []

/-- The spans of all loop iterations of `chunk_text`, starting from
`start = 0`, with fuel `length text + 1`. -/
def chunkSpans (delims : List (List Char)) (chunk_size overlap back fwd : Nat)
    (text : List Char) : Option (List (Nat × Nat)) :=
  chunkSpansAux delims chunk_size overlap back fwd text (text.length + 1) 0

/-- `chunk = text[start:end].strip()` for a span. -/
def sliceStrip (text : List Char) (st e : Nat) : List Char :=
  pyStrip (pySlice text st e)

/-- `if chunk and len(chunk) > minLen`: the append guard of both variants
(`minLen = 50` for HTML, `100` for PDF). -/
def keptChunk (minLen : Nat) (c : List Char) : Bool :=
  !c.isEmpty && decide (minLen < c.length)

/-- The spans whose chunks pass the length guard, i.e. the spans of the
chunks the loop appends to its result, in iteration order. -/
def keptSpans (delims : List (List Char))
    (chunk_size overlap back fwd minLen : Nat) (text : List Char) :
    List (Nat × Nat) :=
  match chunkSpans delims chunk_size overlap back fwd text with
  | none => []
  | some spans =>
    spans.filter (fun p => keptChunk minLen (sliceStrip text p.1 p.2))

/-- The chunks kept by the loop: the stripped slice of every iteration
span passing the length guard, in iteration order.  Returns `[]` when the
fuel is exhausted (non-terminating parameter choice). -/
def chunkTextCore (delims : List (List Char))
    (chunk_size overlap back fwd minLen : Nat) (text : List Char) :
    List (List Char) :=
  (keptSpans delims chunk_size overlap back fwd minLen text).map
    (fun p => sliceStrip text p.1 p.2)

/-- Delimiter list of `LegalCaseVectorDB.chunk_text`:
`['. ', '! ', '? ', '\n\n']`. -/
def htmlDelims : List (List Char) :=
  [['.', ' '], ['!', ' '], ['?', ' '], ['\n', '\n']]

/-- Delimiter list of `FederalLawIngestion.chunk_text`:
`['. ', '.\n', '! ', '? ']`. -/
def pdfDelims : List (List Char) :=
  [['.', ' '], ['.', '\n'], ['!', ' '], ['?', ' ']]

namespace LegalCaseVectorDB

/-- `LegalCaseVectorDB.chunk_text` (vectorize.py): sentence-boundary
search only forward of the tentative end, window `+150`, minimum kept
length `> 50`. -/
def chunk_text (text : List Char) (chunk_size overlap : Nat) : List (List Char) :=
  chunkTextCore htmlDelims chunk_size overlap 0 150 50 text

end LegalCaseVectorDB

namespace FederalLawIngestion

/-- `FederalLawIngestion.chunk_text` (Federal Law PDF Ingestion.py):
sentence-boundary search in the window `±200` around the tentative end,
minimum kept length `> 100`. -/
def chunk_text (text : List Char) (chunk_size overlap : Nat) : List (List Char) :=
  chunkTextCore pdfDelims chunk_size overlap 200 200 100 text

end FederalLawIngestion

/-! ## The identity assigner: `hashlib.md5(unique_string.encode()).hexdigest()`

Python `str.encode()` is UTF-8; `hashlib.md5` is the standard MD5 digest,
implemented here executably over byte lists. -/

/-- UTF-8 encoding of one code point (Python `str.encode()`). -/
def utf8EncodeChar (c : Char) : List Nat :=
  let n := c.toNat
  if n < 128 then [n]
  else if n < 2048 then [192 + n / 64, 128 + n % 64]
  else if n < 65536 then [224 + n / 4096, 128 + (n / 64) % 64, 128 + n % 64]
  else [240 + n / 262144, 128 + (n / 4096) % 64, 128 + (n / 64) % 64, 128 + n % 64]

/-- UTF-8 encoding of a string as a byte list. -/
def utf8Encode (l : List Char) : List Nat :=
  (l.map utf8EncodeChar).flatten

/-- Truncation to a 32-bit word. -/
def w32 (n : Nat) : Nat := n % 4294967296

/-- 32-bit left rotation (for `x < 2^32`). -/
def rotl32 (x s : Nat) : Nat := w32 (x * 2 ^ s + x / 2 ^ (32 - s))

/-- 32-bit complement (for `x < 2^32`). -/
def not32 (x : Nat) : Nat := 4294967295 - x

/-- MD5 round function F. -/
def mdF (b c d : Nat) : Nat := (b &&& c) ||| (not32 b &&& d)

/-- MD5 round function G. -/
def mdG (b c d : Nat) : Nat := (b &&& d) ||| (c &&& not32 d)

/-- MD5 round function H. -/
def mdH (b c d : Nat) : Nat := b ^^^ c ^^^ d

/-- MD5 round function I. -/
def mdI (b c d : Nat) : Nat := c ^^^ (b ||| not32 d)

/-- The MD5 sine-derived constant table `K[0..63]`. -/
def mdK : List Nat :=
  [0xd76aa478, 0xe8c7b756, 0x242070db, 0xc1bdceee,
   0xf57c0faf, 0x4787c62a, 0xa8304613, 0xfd469501,
   0x698098d8, 0x8b44f7af, 0xffff5bb1, 0x895cd7be,
   0x6b901122, 0xfd987193, 0xa679438e, 0x49b40821,
   0xf61e2562, 0xc040b340, 0x265e5a51, 0xe9b6c7aa,
   0xd62f105d, 0x02441453, 0xd8a1e681, 0xe7d3fbc8,
   0x21e1cde6, 0xc33707d6, 0xf4d50d87, 0x455a14ed,
   0xa9e3e905, 0xfcefa3f8, 0x676f02d9, 0x8d2a4c8a,
   0xfffa3942, 0x8771f681, 0x6d9d6122, 0xfde5380c,
   0xa4beea44, 0x4bdecfa9, 0xf6bb4b60, 0xbebfbc70,
   0x289b7ec6, 0xeaa127fa, 0xd4ef3085, 0x04881d05,
   0xd9d4d039, 0xe6db99e5, 0x1fa27cf8, 0xc4ac5665,
   0xf4292244, 0x432aff97, 0xab9423a7, 0xfc93a039,
   0x655b59c3, 0x8f0ccc92, 0xffeff47d, 0x85845dd1,
   0x6fa87e4f, 0xfe2ce6e0, 0xa3014314, 0x4e0811a1,
   0xf7537e82, 0xbd3af235, 0x2ad7d2bb, 0xeb86d391]

/-- The MD5 per-step rotation amounts `s[0..63]`. -/
def mdS : List Nat :=
  [7, 12, 17, 22, 7, 12, 17, 22, 7, 12, 17, 22, 7, 12, 17, 22,
   5, 9, 14, 20, 5, 9, 14, 20, 5, 9, 14, 20, 5, 9, 14, 20,
   4, 11, 16, 23, 4, 11, 16, 23, 4, 11, 16, 23, 4, 11, 16, 23,
   6, 10, 15, 21, 6, 10, 15, 21, 6, 10, 15, 21, 6, 10, 15, 21]

/-- `k` little-endian bytes of `n`. -/
def leBytes : Nat → Nat → List Nat
  | 0, _ => []
  | k + 1, n => (n % 256) :: leBytes k (n / 256)

/-- MD5 padding: append `0x80`, zero bytes to 56 mod 64, then the bit
length as 8 little-endian bytes. -/
def md5Pad (msg : List Nat) : List Nat :=
  let r := (msg.length + 1) % 64
  msg ++ 128 :: List.replicate ((120 - r) % 64) 0
    ++ leBytes 8 ((msg.length * 8) % 18446744073709551616)

/-- Group a 64-byte block into 16 little-endian 32-bit words. -/
def toWords : List Nat → List Nat
  | b0 :: b1 :: b2 :: b3 :: rest =>
    (b0 + 256 * b1 + 65536 * b2 + 16777216 * b3) :: toWords rest
  | _ => []

/-- One of the 64 MD5 steps. -/
def md5Step (msg : List Nat) (st : Nat × Nat × Nat × Nat) (i : Nat) :
    Nat × Nat × Nat × Nat :=
  let (a, b, c, d) := st
  let fg : Nat × Nat :=
    if i < 16 then (mdF b c d, i)
    else if i < 32 then (mdG b c d, (5 * i + 1) % 16)
    else if i < 48 then (mdH b c d, (3 * i + 5) % 16)
    else (mdI b c d, (7 * i) % 16)
  (d, w32 (b + rotl32 (w32 (a + fg.1 + mdK.getD i 0 + msg.getD fg.2 0))
      (mdS.getD i 0)), b, c)

/-- Process one 64-byte block. -/
def md5Block (st : Nat × Nat × Nat × Nat) (block : List Nat) :
    Nat × Nat × Nat × Nat :=
  let m := toWords block
  let r := (List.range 64).foldl (md5Step m) st
  (w32 (st.1 + r.1), w32 (st.2.1 + r.2.1), w32 (st.2.2.1 + r.2.2.1),
   w32 (st.2.2.2 + r.2.2.2))

/-- Process a padded message 64 bytes at a time.  Structural recursion on
a fuel bound (each step consumes 64 bytes, so `length` steps more than
suffice). -/
def md5ProcessAux (st : Nat × Nat × Nat × Nat) :
    Nat → List Nat → Nat × Nat × Nat × Nat
  | 0, _ => st
  | fuel + 1, bytes =>
    match bytes with
    | [] => st
    | b :: rest =>
      md5ProcessAux (md5Block st ((b :: rest).take 64)) fuel (rest.drop 63)

/-- Process a padded message 64 bytes at a time. -/
def md5Process (st : Nat × Nat × Nat × Nat) (bytes : List Nat) :
    Nat × Nat × Nat × Nat :=
  md5ProcessAux st bytes.length bytes

/-- The 16 digest bytes of a message: the four chained registers in
little-endian byte order, starting from the standard initialization
vector. -/
def md5DigestBytes (msg : List Nat) : List Nat :=
  let r := md5Process (0x67452301, 0xefcdab89, 0x98badcfe, 0x10325476)
    (md5Pad msg)
  leBytes 4 r.1 ++ leBytes 4 r.2.1 ++ leBytes 4 r.2.2.1 ++ leBytes 4 r.2.2.2

/-- The MD5 digest read as one number below `2^128` (digest bytes in
hex-string order, big-endian). -/
def md5Nat (msg : List Nat) : Nat :=
  (md5DigestBytes msg).foldl (fun acc x => acc * 256 + x) 0

/-- Zero-padded 32-digit lowercase hex rendering: `hexdigest()`. -/
def hexPad32 (n : Nat) : List Char :=
  List.replicate (32 - (Nat.toDigits 16 n).length) '0' ++ Nat.toDigits 16 n

/-- `hashlib.md5(bytes).hexdigest()`. -/
def md5Hex (msg : List Nat) : String :=
  ⟨hexPad32 (md5Nat msg)⟩

/-- Decimal rendering, recursing on the leading digits; structural
recursion on a fuel bound (`n` has at most `n + 1` decimal digits). -/
def natDecAux : Nat → Nat → List Char
  | 0, _ => []
  | fuel + 1, n =>
    if n < 10 then [Char.ofNat (48 + n)]
    else natDecAux fuel (n / 10) ++ [Char.ofNat (48 + n % 10)]

/-- Decimal rendering of a natural number, as Python's `str(int)` /
f-string interpolation of a non-negative `int`. -/
def natDec (n : Nat) : List Char :=
  natDecAux (n + 1) n

namespace LegalCaseVectorDB

/-- `unique_string = f"{state}_{file_name}_{chunk_index}"` of
`generate_chunk_id`. -/
def uniqueString (state file_name : String) (chunk_index : Nat) : List Char :=
  state.data ++ '_' :: (file_name.data ++ '_' :: natDec chunk_index)

/-- `LegalCaseVectorDB.generate_chunk_id`:
`hashlib.md5(unique_string.encode()).hexdigest()`. -/
def generate_chunk_id (state file_name : String) (chunk_index : Nat) : String :=
  md5Hex (utf8Encode (uniqueString state file_name chunk_index))

end LegalCaseVectorDB

namespace FederalLawIngestion

/-- The PDF pipeline's inline id string `f"{pdf_file.name}_{chunk_idx}"`. -/
def idString (file_name : String) (chunk_index : Nat) : List Char :=
  file_name.data ++ '_' :: natDec chunk_index

/-- The PDF pipeline's inline chunk id:
`hashlib.md5(f"{pdf_file.name}_{chunk_idx}".encode()).hexdigest()`. -/
def chunk_id (file_name : String) (chunk_index : Nat) : String :=
  md5Hex (utf8Encode (idString file_name chunk_index))

end FederalLawIngestion

/-! ## The batch loader

The flush logic shared by `LegalCaseVectorDB.process_state_folder`
(vectorize.py lines 164–202) and `FederalLawIngestion.process_pdf_folder`
(lines 128–167): every generated chunk record is appended to the buffer
lists (`documents`/`metadatas`/`ids`, modelled as one buffer of records);
when the buffer reaches `batch_size` it is flushed with `collection.add`
inside `try/except` — on success or on a raised exception the buffer is
reset to empty — and after the loop a non-empty remainder is flushed the
same way.  The external store is modelled by the oracle `addFails`, giving
for each successive `collection.add` call whether it raises. -/

/-- The loader loop over the stream of generated records.  Arguments:
remaining records, current buffer, index of the next `collection.add`
call.  Returns the payloads of all attempted `collection.add` calls in
order, and the payloads of the calls that raised. -/
def loaderAux {α : Type} (batch_size : Nat) (addFails : Nat → Bool) :
    List α → List α → Nat → List (List α) × List (List α)
  | [], buffer, k =>
    if buffer.isEmpty then ([], [])
    else if addFails k then ([buffer], [buffer]) else ([buffer], [])
  | r :: rs, buffer, k =>
    if batch_size ≤ (buffer ++ [r]).length then
      if addFails k then
        ((buffer ++ [r]) :: (loaderAux batch_size addFails rs [] (k + 1)).1,
         (buffer ++ [r]) :: (loaderAux batch_size addFails rs [] (k + 1)).2)
      else
        ((buffer ++ [r]) :: (loaderAux batch_size addFails rs [] (k + 1)).1,
         (loaderAux batch_size addFails rs [] (k + 1)).2)
    else loaderAux batch_size addFails rs (buffer ++ [r]) k

/-- A whole processing run over the stream of generated chunk records:
the loader starting from empty buffers. -/
def processRecords {α : Type} (batch_size : Nat) (addFails : Nat → Bool)
    (records : List α) : List (List α) × List (List α) :=
  loaderAux batch_size addFails records [] 0

/-- Greedy partition of a list into batches of `batch_size` (the first
`batch_size` elements, then the rest); used to characterize the loader's
flush calls. -/
def greedyBatches {α : Type} (batch_size : Nat) : List α → List (List α)
  | [] => []
  | r :: rs => ((r :: rs).take batch_size) :: greedyBatches batch_size (rs.drop (batch_size - 1))
termination_by l => l.length
decreasing_by simp [List.length_drop]; omega

/-! ## The orchestrator's folder walk (`process_all_states`) -/

/-- One entry of `root_path.iterdir()`. -/
structure DirEntry where
  name : String
  isDir : Bool
deriving DecidableEq, Repr

/-- Python `s.startswith(pre)`: the first `len(pre)` characters of `s`
are `pre`. -/
def pyStartsWith (s pre : String) : Bool :=
  decide (s.data.take pre.data.length = pre.data)

/-- The state-folder selection of `process_all_states`:
`f.is_dir() and not f.name.startswith('.') and not f.name.startswith('_')
and f.name != 'legal_cases_chroma_db'`. -/
def state_folders (entries : List DirEntry) : List DirEntry :=
  entries.filter (fun f => f.isDir && !(pyStartsWith f.name ".")
    && !(pyStartsWith f.name "_") && !(f.name == "legal_cases_chroma_db"))

/-! ## Title resolution in `extract_text_from_html`

The parsed document is modelled as the data the code inspects: the result
of `soup.find('title')` (an optional tag carrying its raw inner text) and
the filename stem `html_path.stem`.  `title.get_text(strip=True)` strips
surrounding whitespace from the tag's text. -/

/-- A found `<title>` tag, carrying its raw inner text. -/
structure HtmlTag where
  text : String
deriving DecidableEq, Repr

/-- `title.get_text(strip=True)`. -/
def getTextStrip (t : HtmlTag) : String :=
  ⟨pyStrip t.text.data⟩

namespace LegalCaseVectorDB

/-- The title-resolution branch of `extract_text_from_html`:
`title = soup.find('title'); case_title = title.get_text(strip=True) if
title else html_path.stem`. -/
def case_title (title : Option HtmlTag) (stem : String) : String :=
  match title with
  | some t => getTextStrip t
  | none => stem

end LegalCaseVectorDB

/-! ## Concrete inputs used in the theorems below -/

/-- The boundary-snapping example text of the specification. -/
def c2Text : List Char :=
  ("Clause one ends here. Clause two begins and runs long enough to pass the target size threshold before hitting a period.").data

/-- A text whose middle region is a long whitespace run: 60 letters,
140 spaces, 60 letters (total length 260). -/
def gapText : List Char :=
  List.replicate 60 'a' ++ List.replicate 140 ' ' ++ List.replicate 60 'b'

/-! ## Helper lemmas about the chunker -/

theorem pyStrip_length_le (l : List Char) : (pyStrip l).length ≤ l.length := by
  unfold pyStrip
  simp only [List.length_reverse]
  calc ((l.dropWhile Char.isWhitespace).reverse.dropWhile Char.isWhitespace).length
      ≤ (l.dropWhile Char.isWhitespace).reverse.length :=
        (List.dropWhile_sublist _).length_le
    _ = (l.dropWhile Char.isWhitespace).length := List.length_reverse ..
    _ ≤ l.length := (List.dropWhile_sublist _).length_le

theorem sliceStrip_length_le (text : List Char) (st e : Nat) :
    (sliceStrip text st e).length ≤ e - st := by
  unfold sliceStrip pySlice
  calc (pyStrip ((text.drop st).take (e - st))).length
      ≤ ((text.drop st).take (e - st)).length := pyStrip_length_le _
    _ ≤ e - st := by simp

theorem pyRfind_bounds {sub text : List Char} {a b p : Nat}
    (h : pyRfind sub text a b = some p) :
    a ≤ p ∧ p + sub.length ≤ min b text.length := by
  unfold pyRfind at h
  have hmem := List.max?_mem (fun x y => max_choice x y) h
  have := List.mem_filter.mp hmem
  obtain ⟨-, hcond⟩ := this
  simp only [Bool.and_eq_true, decide_eq_true_eq] at hcond
  exact ⟨hcond.1.1, hcond.1.2⟩

theorem findDelim_bounds {delims : List (List Char)} {text : List Char}
    {a b p len : Nat} (h : findDelim delims text a b = some (p, len)) :
    a ≤ p ∧ p + len ≤ min b text.length ∧ ∃ d ∈ delims, d.length = len := by
  induction delims with
  | nil => simp [findDelim] at h
  | cons d ds ih =>
    rw [findDelim] at h
    cases hr : pyRfind d text a b with
    | some q =>
      rw [hr] at h
      obtain ⟨rfl, rfl⟩ : q = p ∧ d.length = len := by
        simpa using h
      obtain ⟨h1, h2⟩ := pyRfind_bounds hr
      exact ⟨h1, h2, d, by simp⟩
    | none =>
      rw [hr] at h
      obtain ⟨h1, h2, d', hd', hlen⟩ := ih h
      exact ⟨h1, h2, d', by simp [hd'], hlen⟩

theorem computeEnd_le (delims : List (List Char)) (chunk_size back fwd : Nat)
    (text : List Char) (start : Nat) :
    computeEnd delims chunk_size back fwd text start ≤ start + chunk_size + fwd := by
  unfold computeEnd
  split
  · rename_i hlt
    cases hfd : findDelim delims text (start + chunk_size - back)
        (start + chunk_size + fwd) with
    | some pl =>
      obtain ⟨p, len⟩ := pl
      obtain ⟨-, h2, -⟩ := findDelim_bounds hfd
      simp only []
      omega
    | none => simp
  · omega

theorem computeEnd_lower (delims : List (List Char)) (chunk_size back fwd : Nat)
    (text : List Char) (start : Nat)
    (hdel : ∀ d ∈ delims, d.length = 2) :
    start + chunk_size - back + 2 ≤ computeEnd delims chunk_size back fwd text start
      ∨ computeEnd delims chunk_size back fwd text start = start + chunk_size := by
  unfold computeEnd
  split
  · cases hfd : findDelim delims text (start + chunk_size - back)
        (start + chunk_size + fwd) with
    | some pl =>
      obtain ⟨p, len⟩ := pl
      obtain ⟨h1, -, d, hd, hlen⟩ := findDelim_bounds hfd
      left
      have : len = 2 := by rw [← hlen]; exact hdel d hd
      simp only []
      omega
    | none => right; rfl
  · right; rfl

theorem htmlDelims_len : ∀ d ∈ htmlDelims, d.length = 2 := by decide

theorem pdfDelims_len : ∀ d ∈ pdfDelims, d.length = 2 := by decide

theorem chunkSpansAux_stop {delims : List (List Char)} {cs ov bk fw : Nat}
    {text : List Char} {fuel start : Nat} (h : text.length ≤ start) :
    chunkSpansAux delims cs ov bk fw text fuel start = some [] := by
  cases fuel <;> simp [chunkSpansAux, Nat.not_lt.mpr h]

theorem chunkSpansAux_spans {delims : List (List Char)} {cs ov bk fw : Nat}
    {text : List Char} : ∀ {fuel start : Nat} {l : List (Nat × Nat)},
    chunkSpansAux delims cs ov bk fw text fuel start = some l →
    ∀ p ∈ l, p.2 = computeEnd delims cs bk fw text p.1 := by
  intro fuel
  induction fuel with
  | zero =>
    intro start l h p hp
    rw [chunkSpansAux] at h
    split at h
    · exact absurd h (by simp)
    · obtain rfl : ([] : List (Nat × Nat)) = l := by simpa using h
      simp at hp
  | succ fuel ih =>
    intro start l h p hp
    rw [chunkSpansAux] at h
    split at h
    · cases hr : chunkSpansAux delims cs ov bk fw text fuel
          (nextStart ov text (computeEnd delims cs bk fw text start)) with
      | none => rw [hr] at h; simp at h
      | some rest =>
        rw [hr] at h
        obtain rfl : (start, computeEnd delims cs bk fw text start) :: rest = l := by
          simpa using h
        rcases List.mem_cons.mp hp with rfl | hp'
        · simp
        · exact ih hr p hp'
    · obtain rfl : ([] : List (Nat × Nat)) = l := by simpa using h
      simp at hp

theorem chunkSpansAux_chain {delims : List (List Char)} {cs ov bk fw : Nat}
    {text : List Char} : ∀ {fuel start : Nat} {l : List (Nat × Nat)},
    chunkSpansAux delims cs ov bk fw text fuel start = some l →
    List.Chain' (fun p q => p.2 < text.length ∧ q.1 = p.2 - ov) l
    ∧ (∀ pr, l.head? = some pr → pr.1 = start)
    ∧ (∀ pr, l.getLast? = some pr → text.length ≤ pr.2)
    ∧ (text.length ≤ start → l = [])
    ∧ (start < text.length → l ≠ []) := by
  intro fuel
  induction fuel with
  | zero =>
    intro start l h
    rw [chunkSpansAux] at h
    split at h
    · exact absurd h (by simp)
    · rename_i hge
      obtain rfl : ([] : List (Nat × Nat)) = l := by simpa using h
      refine ⟨List.chain'_nil, by simp, by simp, fun _ => rfl, fun hlt => ?_⟩
      omega
  | succ fuel ih =>
    intro start l h
    rw [chunkSpansAux] at h
    split at h
    · rename_i hlt
      cases hr : chunkSpansAux delims cs ov bk fw text fuel
          (nextStart ov text (computeEnd delims cs bk fw text start)) with
      | none => rw [hr] at h; simp at h
      | some rest =>
        rw [hr] at h
        obtain rfl : (start, computeEnd delims cs bk fw text start) :: rest = l := by
          simpa using h
        obtain ⟨ch, hhd, hlast, hstop, hne⟩ := ih hr
        have hkey : ∀ pr, rest.head? = some pr →
            computeEnd delims cs bk fw text start < text.length ∧
            pr.1 = computeEnd delims cs bk fw text start - ov := by
          intro pr hpr
          have hrne : rest ≠ [] := by
            intro hnil; rw [hnil] at hpr; simp at hpr
          have hcelt : computeEnd delims cs bk fw text start < text.length := by
            by_contra hge
            have : nextStart ov text (computeEnd delims cs bk fw text start) =
                text.length := by
              unfold nextStart; rw [if_neg hge]
            exact hrne (hstop (by rw [this]))
          refine ⟨hcelt, ?_⟩
          have := hhd pr hpr
          rw [this]
          unfold nextStart
          rw [if_pos hcelt]
        refine ⟨?_, ?_, ?_, ?_, ?_⟩
        · rw [List.chain'_cons']
          exact ⟨fun pr hpr => hkey pr hpr, ch⟩
        · intro pr hpr
          obtain rfl : (start, computeEnd delims cs bk fw text start) = pr := by
            simpa using hpr
          rfl
        · intro pr hpr
          cases hrest : rest with
          | nil =>
            rw [hrest] at hpr
            obtain rfl : (start, computeEnd delims cs bk fw text start) = pr := by
              simpa using hpr
            by_contra hge
            have hlt2 : nextStart ov text (computeEnd delims cs bk fw text start)
                < text.length := by
              unfold nextStart
              split
              · omega
              · rename_i hc; exact absurd (Nat.le_of_not_lt hc) (by simpa using hge)
            exact (hne hlt2) hrest
          | cons q qs =>
            rw [hrest] at hpr
            rw [List.getLast?_cons_cons] at hpr
            exact hlast pr (by rw [hrest]; exact hpr)
        · intro hge; omega
        · intro _; simp
    · rename_i hge
      obtain rfl : ([] : List (Nat × Nat)) = l := by simpa using h
      refine ⟨List.chain'_nil, by simp, by simp, fun _ => rfl, fun hlt => ?_⟩
      omega

/-- The cursor strictly advances in one loop iteration, for any delimiter
set of two-character delimiters and any parameters with
`overlap + back < chunk_size + 2` and `overlap < chunk_size` and
`back ≤ chunk_size` (both variants' production constants qualify). -/
theorem step_gt (delims : List (List Char)) (cs ov bk fw : Nat)
    (text : List Char) (start : Nat)
    (hdel : ∀ d ∈ delims, d.length = 2) (h1 : ov + bk < cs + 2)
    (h2 : ov < cs) (h3 : bk ≤ cs) (hstart : start < text.length) :
    start < nextStart ov text (computeEnd delims cs bk fw text start) := by
  have hle := computeEnd_lower delims cs bk fw text start hdel
  unfold nextStart
  split
  · rcases hle with h | h <;> omega
  · omega

theorem chunkSpansAux_isSome {delims : List (List Char)} {cs ov bk fw : Nat}
    {text : List Char}
    (hdel : ∀ d ∈ delims, d.length = 2) (h1 : ov + bk < cs + 2)
    (h2 : ov < cs) (h3 : bk ≤ cs) :
    ∀ (fuel start : Nat), text.length ≤ start + fuel →
    (chunkSpansAux delims cs ov bk fw text fuel start).isSome = true := by
  intro fuel
  induction fuel with
  | zero =>
    intro start hf
    rw [chunkSpansAux]
    rw [if_neg (by omega)]
    rfl
  | succ fuel ih =>
    intro start hf
    rw [chunkSpansAux]
    split
    · rename_i hlt
      have hstep := step_gt delims cs ov bk fw text start hdel h1 h2 h3 hlt
      have := ih (nextStart ov text (computeEnd delims cs bk fw text start))
        (by omega)
      simpa using this
    · rfl

theorem keptChunk_iff {m : Nat} {c : List Char} :
    keptChunk m c = true ↔ c ≠ [] ∧ m < c.length := by
  simp [keptChunk, List.isEmpty_iff]

theorem chunkTextCore_mem {delims : List (List Char)} {cs ov bk fw minLen : Nat}
    {text c : List Char} (h : c ∈ chunkTextCore delims cs ov bk fw minLen text) :
    ∃ st e, c = sliceStrip text st e ∧ keptChunk minLen c = true ∧
      e = computeEnd delims cs bk fw text st := by
  unfold chunkTextCore keptSpans at h
  cases hs : chunkSpans delims cs ov bk fw text with
  | none => rw [hs] at h; simp at h
  | some spans =>
    rw [hs] at h
    obtain ⟨p, hpf, rfl⟩ := List.mem_map.mp h
    obtain ⟨hpmem, hkept⟩ := List.mem_filter.mp hpf
    refine ⟨p.1, p.2, rfl, hkept, ?_⟩
    exact chunkSpansAux_spans hs p hpmem

/-! ## Helper lemmas about the batch loader -/

theorem loaderAux_calls_indep {α : Type} (bs : Nat) (f f' : Nat → Bool) :
    ∀ (rs buf : List α) (k k' : Nat),
    (loaderAux bs f rs buf k).1 = (loaderAux bs f' rs buf k').1 := by
  intro rs
  induction rs with
  | nil =>
    intro buf k k'
    rw [loaderAux, loaderAux]
    cases hbuf : buf.isEmpty with
    | true => simp
    | false => cases f k <;> cases f' k' <;> simp
  | cons r rs ih =>
    intro buf k k'
    rw [loaderAux, loaderAux]
    split
    · cases f k <;> cases f' k' <;> simp <;> exact ih [] (k + 1) (k' + 1)
    · exact ih (buf ++ [r]) k k'

theorem loaderAux_flatten {α : Type} (bs : Nat) (f : Nat → Bool) :
    ∀ (rs buf : List α) (k : Nat),
    ((loaderAux bs f rs buf k).1).flatten = buf ++ rs := by
  intro rs
  induction rs with
  | nil =>
    intro buf k
    rw [loaderAux]
    cases hbuf : buf.isEmpty with
    | true =>
      simp [List.isEmpty_iff.mp hbuf]
    | false => cases f k <;> simp
  | cons r rs ih =>
    intro buf k
    rw [loaderAux]
    split
    · cases f k <;> simp [ih [] (k + 1)]
    · rw [ih (buf ++ [r]) k]
      simp

theorem loaderAux_failed_sub {α : Type} (bs : Nat) (f : Nat → Bool) :
    ∀ (rs buf : List α) (k : Nat) (x : List α),
    x ∈ (loaderAux bs f rs buf k).2 → x ∈ (loaderAux bs f rs buf k).1 := by
  intro rs
  induction rs with
  | nil =>
    intro buf k x hx
    rw [loaderAux] at hx ⊢
    cases hbuf : buf.isEmpty with
    | true => simp [hbuf] at hx
    | false =>
      cases hf : f k with
      | true => simp [hbuf, hf] at hx ⊢; simp [hx]
      | false => simp [hbuf, hf] at hx
  | cons r rs ih =>
    intro buf k x hx
    rw [loaderAux] at hx ⊢
    split at hx
    · rename_i hlen
      rw [if_pos hlen]
      cases hf : f k with
      | true =>
        rw [hf] at hx
        simp only [if_pos rfl] at hx ⊢
        rcases List.mem_cons.mp hx with rfl | hx'
        · exact List.mem_cons_self ..
        · exact List.mem_cons_of_mem _ (ih [] (k + 1) x hx')
      | false =>
        rw [hf] at hx
        simp only [Bool.false_eq_true, if_neg] at hx ⊢
        exact List.mem_cons_of_mem _ (ih [] (k + 1) x hx)
    · rename_i hlen
      rw [if_neg hlen]
      exact ih (buf ++ [r]) k x hx

theorem greedyBatches_nil {α : Type} (bs : Nat) :
    greedyBatches bs ([] : List α) = [] := by
  rw [greedyBatches]

theorem greedyBatches_cons {α : Type} (bs : Nat) (hbs : 0 < bs) (l : List α)
    (hl : l ≠ []) :
    greedyBatches bs l = l.take bs :: greedyBatches bs (l.drop bs) := by
  cases l with
  | nil => exact absurd rfl hl
  | cons x xs =>
    rw [greedyBatches]
    obtain ⟨m, rfl⟩ : ∃ m, bs = m + 1 := ⟨bs - 1, by omega⟩
    simp

theorem loader_calls_greedy {α : Type} (bs : Nat) (f : Nat → Bool) (hbs : 0 < bs) :
    ∀ (rs buf : List α) (k : Nat), buf.length < bs →
    (loaderAux bs f rs buf k).1 = greedyBatches bs (buf ++ rs) := by
  intro rs
  induction rs with
  | nil =>
    intro buf k hlen
    rw [loaderAux]
    cases hbuf : buf.isEmpty with
    | true =>
      simp [List.isEmpty_iff.mp hbuf, greedyBatches_nil]
    | false =>
      have hne : buf ≠ [] := by
        intro h; rw [h] at hbuf; simp at hbuf
      rw [List.append_nil, greedyBatches_cons bs hbs buf hne]
      have h1 : buf.take bs = buf := List.take_of_length_le (by omega)
      have h2 : buf.drop bs = [] := List.drop_eq_nil_of_le (by omega)
      rw [h1, h2, greedyBatches_nil]
      cases f k <;> simp
  | cons r rs ih =>
    intro buf k hlen
    rw [loaderAux]
    split
    · rename_i hflush
      have hbl : (buf ++ [r]).length = bs := by simp at hflush ⊢; omega
      have hg : greedyBatches bs (buf ++ r :: rs)
          = (buf ++ [r]) :: greedyBatches bs rs := by
        rw [greedyBatches_cons bs hbs _ (by simp)]
        have e1 : buf ++ r :: rs = (buf ++ [r]) ++ rs := by simp
        rw [e1, ← hbl, List.take_left, List.drop_left]
      rw [hg]
      have hrec : (loaderAux bs f rs ([] : List α) (k + 1)).1 = greedyBatches bs rs := by
        have := ih ([] : List α) (k + 1) (by simpa using hbs)
        simpa using this
      cases hf : f k <;> simp [hrec]
    · rename_i hflush
      rw [ih (buf ++ [r]) k (by simp at hflush ⊢; omega)]
      simp

/-! ## Helper lemmas about the identity assigner -/

theorem decDigitChar_inj_fin : ∀ a b : Fin 10,
    Char.ofNat (48 + a.val) = Char.ofNat (48 + b.val) → a = b := by decide

theorem natDecAux_fuel : ∀ (n fuel₁ fuel₂ : Nat), n < fuel₁ → n < fuel₂ →
    natDecAux fuel₁ n = natDecAux fuel₂ n := by
  intro n
  induction n using Nat.strong_induction_on with
  | _ n ih =>
    intro f₁ f₂ h₁ h₂
    obtain ⟨g₁, rfl⟩ : ∃ g, f₁ = g + 1 := ⟨f₁ - 1, by omega⟩
    obtain ⟨g₂, rfl⟩ : ∃ g, f₂ = g + 1 := ⟨f₂ - 1, by omega⟩
    rw [natDecAux, natDecAux]
    by_cases hn : n < 10
    · rw [if_pos hn, if_pos hn]
    · rw [if_neg hn, if_neg hn]
      have hlt : n / 10 < n := Nat.div_lt_self (by omega) (by omega)
      rw [ih (n / 10) hlt g₁ g₂ (by omega) (by omega)]

theorem natDec_small {n : Nat} (hn : n < 10) :
    natDec n = [Char.ofNat (48 + n)] := by
  unfold natDec
  rw [natDecAux, if_pos hn]

theorem natDec_large {n : Nat} (hn : ¬ n < 10) :
    natDec n = natDec (n / 10) ++ [Char.ofNat (48 + n % 10)] := by
  unfold natDec
  rw [natDecAux, if_neg hn]
  rw [natDecAux_fuel (n / 10) n (n / 10 + 1)
    (Nat.div_lt_self (by omega) (by omega)) (by omega)]

theorem natDec_ne_nil (n : Nat) : natDec n ≠ [] := by
  by_cases hn : n < 10
  · rw [natDec_small hn]; simp
  · rw [natDec_large hn]; simp

theorem natDec_inj : ∀ (a b : Nat), natDec a = natDec b → a = b := by
  intro a
  induction a using Nat.strong_induction_on with
  | _ a ih =>
    intro b h
    by_cases ha : a < 10 <;> by_cases hb : b < 10
    · rw [natDec_small ha, natDec_small hb] at h
      have hc : Char.ofNat (48 + a) = Char.ofNat (48 + b) := by simpa using h
      have := decDigitChar_inj_fin ⟨a, ha⟩ ⟨b, hb⟩ hc
      simpa using this
    · rw [natDec_small ha, natDec_large hb] at h
      have hlen := congrArg List.length h
      have hpos : 0 < (natDec (b / 10)).length :=
        List.length_pos.mpr (natDec_ne_nil (b / 10))
      simp only [List.length_append, List.length_cons, List.length_nil] at hlen
      omega
    · rw [natDec_large ha, natDec_small hb] at h
      have hlen := congrArg List.length h
      have hpos : 0 < (natDec (a / 10)).length :=
        List.length_pos.mpr (natDec_ne_nil (a / 10))
      simp only [List.length_append, List.length_cons, List.length_nil] at hlen
      omega
    · rw [natDec_large ha, natDec_large hb] at h
      have hlen : (natDec (a / 10)).length = (natDec (b / 10)).length := by
        have := congrArg List.length h
        simp only [List.length_append, List.length_cons, List.length_nil] at this
        omega
      obtain ⟨h1, h2⟩ := List.append_inj h hlen
      have hq : a / 10 = b / 10 :=
        ih (a / 10) (Nat.div_lt_self (by omega) (by omega)) _ h1
      have hc : Char.ofNat (48 + a % 10) = Char.ofNat (48 + b % 10) := by
        simpa using h2
      have hr := decDigitChar_inj_fin ⟨a % 10, Nat.mod_lt _ (by omega)⟩
        ⟨b % 10, Nat.mod_lt _ (by omega)⟩ hc
      have hr' : a % 10 = b % 10 := by simpa using hr
      omega

theorem leBytes_lt : ∀ (k n : Nat), ∀ x ∈ leBytes k n, x < 256 := by
  intro k
  induction k with
  | zero => intro n x hx; simp [leBytes] at hx
  | succ k ih =>
    intro n x hx
    rw [leBytes] at hx
    rcases List.mem_cons.mp hx with rfl | hx'
    · exact Nat.mod_lt _ (by omega)
    · exact ih (n / 256) x hx'

theorem leBytes_length : ∀ (k n : Nat), (leBytes k n).length = k := by
  intro k
  induction k with
  | zero => intro n; rfl
  | succ k ih => intro n; rw [leBytes]; simp [ih]

theorem foldl_base256_lt : ∀ (l : List Nat) (acc : Nat), (∀ x ∈ l, x < 256) →
    l.foldl (fun a x => a * 256 + x) acc < (acc + 1) * 256 ^ l.length := by
  intro l
  induction l with
  | nil => intro acc h; simp [Nat.lt_succ_self acc]
  | cons x xs ih =>
    intro acc h
    rw [List.foldl_cons]
    have hx : x < 256 := h x (by simp)
    have hrec := ih (acc * 256 + x) (fun y hy => h y (by simp [hy]))
    calc (xs.foldl (fun a y => a * 256 + y) (acc * 256 + x))
        < (acc * 256 + x + 1) * 256 ^ xs.length := hrec
      _ ≤ ((acc + 1) * 256) * 256 ^ xs.length :=
        Nat.mul_le_mul_right _ (by omega)
      _ = (acc + 1) * 256 ^ (x :: xs).length := by
        simp [List.length_cons, pow_succ]
        ring

theorem md5Nat_lt (msg : List Nat) : md5Nat msg < 2 ^ 128 := by
  unfold md5Nat
  have h1 : ∀ x ∈ md5DigestBytes msg, x < 256 := by
    unfold md5DigestBytes
    intro x hx
    simp only [List.mem_append] at hx
    rcases hx with ((h | h) | h) | h <;> exact leBytes_lt 4 _ x h
  have h2 : (md5DigestBytes msg).length = 16 := by
    unfold md5DigestBytes
    simp [leBytes_length]
  have h3 := foldl_base256_lt (md5DigestBytes msg) 0 h1
  rw [h2] at h3
  have h4 : (256 : Nat) ^ 16 = 2 ^ 128 := by norm_num
  omega

theorem string_eq_of_data {s t : String} (h : s.data = t.data) : s = t := by
  cases s; cases t; exact congrArg String.mk h

theorem uniqueString_inj_state {s s' f : String} {i : Nat}
    (h : LegalCaseVectorDB.uniqueString s f i
      = LegalCaseVectorDB.uniqueString s' f i) : s = s' := by
  unfold LegalCaseVectorDB.uniqueString at h
  have hlen : s.data.length = s'.data.length := by
    have := congrArg List.length h
    simp only [List.length_append, List.length_cons] at this
    omega
  obtain ⟨h1, -⟩ := List.append_inj h hlen
  exact string_eq_of_data h1

theorem uniqueString_inj_file {s f f' : String} {i : Nat}
    (h : LegalCaseVectorDB.uniqueString s f i
      = LegalCaseVectorDB.uniqueString s f' i) : f = f' := by
  unfold LegalCaseVectorDB.uniqueString at h
  have h2 := List.append_cancel_left h
  have h3 : f.data ++ '_' :: natDec i = f'.data ++ '_' :: natDec i := by
    simpa using h2
  have hlen : f.data.length = f'.data.length := by
    have := congrArg List.length h3
    simp only [List.length_append, List.length_cons] at this
    omega
  obtain ⟨h4, -⟩ := List.append_inj h3 hlen
  exact string_eq_of_data h4

theorem uniqueString_inj_idx {s f : String} {i j : Nat}
    (h : LegalCaseVectorDB.uniqueString s f i
      = LegalCaseVectorDB.uniqueString s f j) : i = j := by
  unfold LegalCaseVectorDB.uniqueString at h
  have h2 := List.append_cancel_left h
  have h3 : f.data ++ '_' :: natDec i = f.data ++ '_' :: natDec j := by
    simpa using h2
  have h4 := List.append_cancel_left h3
  exact natDec_inj i j (by simpa using h4)

theorem idString_inj_file {f f' : String} {i : Nat}
    (h : FederalLawIngestion.idString f i = FederalLawIngestion.idString f' i) :
    f = f' := by
  unfold FederalLawIngestion.idString at h
  have hlen : f.data.length = f'.data.length := by
    have := congrArg List.length h
    simp only [List.length_append, List.length_cons] at this
    omega
  obtain ⟨h1, -⟩ := List.append_inj h hlen
  exact string_eq_of_data h1

theorem idString_inj_idx {f : String} {i j : Nat}
    (h : FederalLawIngestion.idString f i = FederalLawIngestion.idString f j) :
    i = j := by
  unfold FederalLawIngestion.idString at h
  have h2 := List.append_cancel_left h
  exact natDec_inj i j (by simpa using h2)

theorem chain'_imp_of_mem {β : Type} {R S : β → β → Prop} :
    ∀ {l : List β}, (∀ a ∈ l, ∀ b ∈ l, R a b → S a b) →
    List.Chain' R l → List.Chain' S l := by
  intro l
  induction l with
  | nil => intro _ _; exact List.chain'_nil
  | cons x xs ih =>
    intro hmem hch
    rw [List.chain'_cons'] at hch ⊢
    obtain ⟨hhd, htl⟩ := hch
    constructor
    · intro y hy
      have hyx : y ∈ x :: xs := by
        cases hxs : xs with
        | nil => rw [hxs] at hy; simp at hy
        | cons z zs =>
          rw [hxs] at hy
          have hz : z = y := by simpa using hy
          simp [← hz, hxs]
      exact hmem x (by simp) y hyx (hhd y hy)
    · exact ih (fun a ha b hb hr => hmem a (by simp [ha]) b (by simp [hb]) hr) htl

/-! ## The claims -/

/-- C1 counterexample: it is not the case that changing the chunk index
always changes the id — `generate_chunk_id` maps infinitely many distinct
chunk indices into the `2^128` possible MD5 digests, so two distinct
indices must collide (non-constructive pigeonhole). -/
theorem claim_C1_counterexample :
    ¬ (∀ (state file_name : String) (i j : Nat), i ≠ j →
        LegalCaseVectorDB.generate_chunk_id state file_name i ≠
          LegalCaseVectorDB.generate_chunk_id state file_name j) := by
  intro hclaim
  obtain ⟨i, j, hij, heq⟩ := Finite.exists_ne_map_eq_of_infinite
    (fun i : Nat =>
      (⟨md5Nat (utf8Encode (LegalCaseVectorDB.uniqueString "california" "case.html" i)),
        md5Nat_lt _⟩ : Fin (2 ^ 128)))
  apply hclaim "california" "case.html" i j hij
  have hval : md5Nat (utf8Encode (LegalCaseVectorDB.uniqueString "california" "case.html" i))
      = md5Nat (utf8Encode (LegalCaseVectorDB.uniqueString "california" "case.html" j)) :=
    congrArg Fin.val heq
  unfold LegalCaseVectorDB.generate_chunk_id md5Hex
  rw [hval]

/-- C1 (amended): computing a chunk id twice yields identical strings in
both pipeline variants, and changing any single one of the inputs always
changes the pre-hash `unique_string` — so ids of distinct inputs can only
coincide through an MD5 digest collision. -/
theorem claim_C1 :
    (∀ (state file_name : String) (i : Nat),
      LegalCaseVectorDB.generate_chunk_id state file_name i
        = LegalCaseVectorDB.generate_chunk_id state file_name i ∧
      FederalLawIngestion.chunk_id file_name i
        = FederalLawIngestion.chunk_id file_name i) ∧
    (∀ (s s' f : String) (i : Nat), s ≠ s' →
      LegalCaseVectorDB.uniqueString s f i ≠ LegalCaseVectorDB.uniqueString s' f i) ∧
    (∀ (s f f' : String) (i : Nat), f ≠ f' →
      LegalCaseVectorDB.uniqueString s f i ≠ LegalCaseVectorDB.uniqueString s f' i) ∧
    (∀ (s f : String) (i j : Nat), i ≠ j →
      LegalCaseVectorDB.uniqueString s f i ≠ LegalCaseVectorDB.uniqueString s f j) ∧
    (∀ (f f' : String) (i : Nat), f ≠ f' →
      FederalLawIngestion.idString f i ≠ FederalLawIngestion.idString f' i) ∧
    (∀ (f : String) (i j : Nat), i ≠ j →
      FederalLawIngestion.idString f i ≠ FederalLawIngestion.idString f j) := by
  refine ⟨fun s f i => ⟨rfl, rfl⟩, ?_, ?_, ?_, ?_, ?_⟩
  · intro s s' f i hne h; exact hne (uniqueString_inj_state h)
  · intro s f f' i hne h; exact hne (uniqueString_inj_file h)
  · intro s f i j hne h; exact hne (uniqueString_inj_idx h)
  · intro f f' i hne h; exact hne (idString_inj_file h)
  · intro f i j hne h; exact hne (idString_inj_idx h)

/-- C1 witness: concrete single-input changes producing distinct
pre-hash strings, in both variants. -/
theorem claim_C1_witness :
    LegalCaseVectorDB.uniqueString "california" "case.html" 0
      ≠ LegalCaseVectorDB.uniqueString "texas" "case.html" 0 ∧
    LegalCaseVectorDB.uniqueString "california" "a.html" 0
      ≠ LegalCaseVectorDB.uniqueString "california" "b.html" 0 ∧
    LegalCaseVectorDB.uniqueString "california" "a.html" 0
      ≠ LegalCaseVectorDB.uniqueString "california" "a.html" 1 ∧
    FederalLawIngestion.idString "law.pdf" 0 ≠ FederalLawIngestion.idString "act.pdf" 0 ∧
    FederalLawIngestion.idString "law.pdf" 3 ≠ FederalLawIngestion.idString "law.pdf" 7 :=
  ⟨claim_C1.2.1 "california" "texas" "case.html" 0 (by decide),
   claim_C1.2.2.1 "california" "a.html" "b.html" 0 (by decide),
   claim_C1.2.2.2.1 "california" "a.html" 0 1 (by decide),
   claim_C1.2.2.2.2.1 "law.pdf" "act.pdf" 0 (by decide),
   claim_C1.2.2.2.2.2 "law.pdf" 3 7 (by decide)⟩

/-- C2 counterexample: on the specification's example text with target
size 30 and forward-only window 20, the first chunk's end is not the
offset just past `"Clause one ends here. "` (22): the forward-only
`rfind` window `[30, 50)` contains no delimiter, so no snapping occurs. -/
theorem claim_C2_counterexample :
    computeEnd htmlDelims 30 0 20 c2Text 0 ≠ ("Clause one ends here. ").data.length := by
  decide

/-- C2 (amended): with target size 30 and a forward-only window of 20,
the first chunk ends at the raw 30-character offset — the period-space
delimiter at offset 20 lies behind the tentative end, where the
forward-only search of the HTML variant cannot reach, and the window
`[30, 50)` contains no delimiter; the first chunk is the raw cut
`"Clause one ends here. Clause t"`. -/
theorem claim_C2 :
    computeEnd htmlDelims 30 0 20 c2Text 0 = 30 ∧
    sliceStrip c2Text 0 (computeEnd htmlDelims 30 0 20 c2Text 0)
      = ("Clause one ends here. Clause t").data ∧
    pyRfind ['.', ' '] c2Text 30 50 = none := by
  refine ⟨by decide, by decide, by decide⟩

/-- C3 counterexample: an HTML document whose `<title>` element contains
only whitespace makes `extract_text_from_html` return an empty title —
the stem fallback is not taken, refuting both "non-empty title element
text, otherwise the stem" and "the returned title is never empty". -/
theorem claim_C3_counterexample :
    LegalCaseVectorDB.case_title (some ⟨" "⟩) "casefile" = "" := by decide

/-- C3 (amended): the filename-stem fallback is taken exactly when no
title element is found; when a title element is found, its
whitespace-stripped text is returned unchanged — non-empty whenever that
stripped text is non-empty, but empty for a whitespace-only title
element. -/
theorem claim_C3 : ∀ (t : HtmlTag) (stem : String),
    LegalCaseVectorDB.case_title none stem = stem ∧
    LegalCaseVectorDB.case_title (some t) stem = getTextStrip t ∧
    (getTextStrip t ≠ "" → LegalCaseVectorDB.case_title (some t) stem ≠ "") := by
  intro t stem
  exact ⟨rfl, rfl, fun h => h⟩

/-- C3 witness: a present title with non-empty stripped text is returned
(non-empty), and an absent title element falls back to the stem. -/
theorem claim_C3_witness :
    LegalCaseVectorDB.case_title none "smith_v_jones" = "smith_v_jones" ∧
    LegalCaseVectorDB.case_title (some ⟨" Smith v. Jones "⟩) "f" ≠ "" :=
  ⟨(claim_C3 ⟨""⟩ "smith_v_jones").1,
   (claim_C3 ⟨" Smith v. Jones "⟩ "f").2.2 (by decide)⟩

set_option maxRecDepth 40000

/-- C4 counterexample: on `gapText` (60 letters, 140 spaces, 60 letters)
with chunk size 60 and overlap 10, the kept spans are `(0, 60)` and
`(200, 260)`: the three middle iterations' chunks strip below the 50-char
minimum and are discarded, leaving the region `[60, 200)` outside every
returned chunk's span — a 140-char gap between consecutive returned
chunks, far exceeding the 10-char overlap (position 100, for instance,
lies in no kept span). -/
theorem claim_C4_counterexample :
    keptSpans htmlDelims 60 10 0 150 50 gapText = [(0, 60), (200, 260)] ∧
    LegalCaseVectorDB.chunk_text gapText 60 10
      = [List.replicate 60 'a', List.replicate 60 'b'] ∧
    ((keptSpans htmlDelims 60 10 0 150 50 gapText).all
      (fun p => !(decide (p.1 ≤ 100) && decide (100 < p.2)))) = true ∧
    ¬ (200 - 60 ≤ 10) := by
  refine ⟨by decide, by decide, by decide, by decide⟩

/-- C4 (amended, both variants with their production constants — HTML
1000/200, PDF 1500/300): provided no iteration's chunk is discarded by
the minimum-length filter, the returned chunks' spans cover the text with
no gap — every span is at least 1000 (HTML) / 1302 (PDF) characters wide,
each successor span starts exactly the overlap (200 / 300 characters)
before its predecessor's end, the first span starts at offset 0, and the
last span ends at or beyond the end of the text.  A discarded middle
chunk can open a gap wider than the overlap (see the counterexample). -/
theorem claim_C4 :
    (∀ (text : List Char) (l : List (Nat × Nat)),
      chunkSpans htmlDelims 1000 200 0 150 text = some l →
      (∀ p ∈ l, keptChunk 50 (sliceStrip text p.1 p.2) = true) →
      keptSpans htmlDelims 1000 200 0 150 50 text = l ∧
      (∀ p ∈ l, p.1 + 1000 ≤ p.2) ∧
      List.Chain' (fun p q => p.2 < text.length ∧ q.1 + 200 = p.2) l ∧
      (∀ pr, l.head? = some pr → pr.1 = 0) ∧
      (∀ pr, l.getLast? = some pr → text.length ≤ pr.2)) ∧
    (∀ (text : List Char) (l : List (Nat × Nat)),
      chunkSpans pdfDelims 1500 300 200 200 text = some l →
      (∀ p ∈ l, keptChunk 100 (sliceStrip text p.1 p.2) = true) →
      keptSpans pdfDelims 1500 300 200 200 100 text = l ∧
      (∀ p ∈ l, p.1 + 1302 ≤ p.2) ∧
      List.Chain' (fun p q => p.2 < text.length ∧ q.1 + 300 = p.2) l ∧
      (∀ pr, l.head? = some pr → pr.1 = 0) ∧
      (∀ pr, l.getLast? = some pr → text.length ≤ pr.2)) := by
  constructor
  · intro text l hspans hkept
    have hchain := chunkSpansAux_chain hspans
    have hsp := chunkSpansAux_spans hspans
    have hlow : ∀ p ∈ l, p.1 + 1000 ≤ p.2 := by
      intro p hp
      have := computeEnd_lower htmlDelims 1000 0 150 text p.1 htmlDelims_len
      rw [hsp p hp]
      omega
    refine ⟨?_, hlow, ?_, hchain.2.1, hchain.2.2.1⟩
    · unfold keptSpans
      rw [hspans]
      exact List.filter_eq_self.mpr hkept
    · refine chain'_imp_of_mem ?_ hchain.1
      intro p hp q hq hr
      have := hlow p hp
      exact ⟨hr.1, by omega⟩
  · intro text l hspans hkept
    have hchain := chunkSpansAux_chain hspans
    have hsp := chunkSpansAux_spans hspans
    have hlow : ∀ p ∈ l, p.1 + 1302 ≤ p.2 := by
      intro p hp
      have := computeEnd_lower pdfDelims 1500 200 200 text p.1 pdfDelims_len
      rw [hsp p hp]
      omega
    refine ⟨?_, hlow, ?_, hchain.2.1, hchain.2.2.1⟩
    · unfold keptSpans
      rw [hspans]
      exact List.filter_eq_self.mpr hkept
    · refine chain'_imp_of_mem ?_ hchain.1
      intro p hp q hq hr
      have := hlow p hp
      exact ⟨hr.1, by omega⟩

/-- C4 witness: a 60-character text yields the single kept HTML-variant
span `(0, 1000)`, and a 101-character text the single kept PDF-variant
span `(0, 1500)`; each starts at 0 and ends past the text's end. -/
theorem claim_C4_witness :
    (keptSpans htmlDelims 1000 200 0 150 50 (List.replicate 60 'a') = [(0, 1000)] ∧
      (List.replicate 60 'a').length ≤ 1000) ∧
    (keptSpans pdfDelims 1500 300 200 200 100 (List.replicate 101 'b') = [(0, 1500)] ∧
      (List.replicate 101 'b').length ≤ 1500) :=
  ⟨⟨(claim_C4.1 (List.replicate 60 'a') [(0, 1000)] (by decide) (by decide)).1,
    (claim_C4.1 (List.replicate 60 'a') [(0, 1000)] (by decide) (by decide)).2.2.2.2
      (0, 1000) rfl⟩,
   ⟨(claim_C4.2 (List.replicate 101 'b') [(0, 1500)] (by decide) (by decide)).1,
    (claim_C4.2 (List.replicate 101 'b') [(0, 1500)] (by decide) (by decide)).2.2.2.2
      (0, 1500) rfl⟩⟩

/-- C5: every chunk returned by `chunk_text` has length strictly greater
than the hard-coded minimum (50 in the HTML variant, 100 in the PDF
variant); in particular no returned chunk is empty.  The returned chunks
are already stripped, so their length is their trimmed length. -/
theorem claim_C5 :
    (∀ (text : List Char) (chunk_size overlap : Nat) (c : List Char),
      c ∈ LegalCaseVectorDB.chunk_text text chunk_size overlap →
      50 < c.length ∧ c ≠ []) ∧
    (∀ (text : List Char) (chunk_size overlap : Nat) (c : List Char),
      c ∈ FederalLawIngestion.chunk_text text chunk_size overlap →
      100 < c.length ∧ c ≠ []) := by
  constructor
  · intro text cs ov c hc
    obtain ⟨st, e, rfl, hkept, -⟩ := chunkTextCore_mem hc
    have h := keptChunk_iff.mp hkept
    exact ⟨h.2, h.1⟩
  · intro text cs ov c hc
    obtain ⟨st, e, rfl, hkept, -⟩ := chunkTextCore_mem hc
    have h := keptChunk_iff.mp hkept
    exact ⟨h.2, h.1⟩

/-- C5 witness: concrete runs of both variants returning a chunk, at which
the minimum-length bound is discharged. -/
theorem claim_C5_witness :
    (50 < (List.replicate 60 'a').length ∧ List.replicate 60 'a' ≠ []) ∧
    (100 < (List.replicate 101 'b').length ∧ List.replicate 101 'b' ≠ []) :=
  ⟨claim_C5.1 (List.replicate 60 'a') 1000 200 (List.replicate 60 'a') (by decide),
   claim_C5.2 (List.replicate 101 'b') 1500 300 (List.replicate 101 'b') (by decide)⟩

/-- C6: with the production parameters (HTML: 1000/200, PDF: 1500/300)
the cursor strictly increases on every loop iteration — including
iterations whose tentative end is snapped to a delimiter — and
consequently the loop terminates within `length + 1` iterations on every
input text (the span computation with that fuel always succeeds). -/
theorem claim_C6 :
    (∀ (text : List Char) (start : Nat), start < text.length →
      start < nextStart 200 text (computeEnd htmlDelims 1000 0 150 text start)) ∧
    (∀ (text : List Char) (start : Nat), start < text.length →
      start < nextStart 300 text (computeEnd pdfDelims 1500 200 200 text start)) ∧
    (∀ text : List Char, (chunkSpans htmlDelims 1000 200 0 150 text).isSome = true) ∧
    (∀ text : List Char, (chunkSpans pdfDelims 1500 300 200 200 text).isSome = true) := by
  refine ⟨?_, ?_, ?_, ?_⟩
  · intro text start h
    exact step_gt htmlDelims 1000 200 0 150 text start htmlDelims_len
      (by omega) (by omega) (by omega) h
  · intro text start h
    exact step_gt pdfDelims 1500 300 200 200 text start pdfDelims_len
      (by omega) (by omega) (by omega) h
  · intro text
    show (chunkSpansAux htmlDelims 1000 200 0 150 text (text.length + 1) 0).isSome = true
    exact chunkSpansAux_isSome htmlDelims_len (by omega) (by omega) (by omega)
      (text.length + 1) 0 (by omega)
  · intro text
    show (chunkSpansAux pdfDelims 1500 300 200 200 text (text.length + 1) 0).isSome = true
    exact chunkSpansAux_isSome pdfDelims_len (by omega) (by omega) (by omega)
      (text.length + 1) 0 (by omega)

/-- C6 witness: the strict-increase statements applied at a concrete text
and cursor position for both variants. -/
theorem claim_C6_witness :
    0 < nextStart 200 (List.replicate 60 'a')
      (computeEnd htmlDelims 1000 0 150 (List.replicate 60 'a') 0) ∧
    0 < nextStart 300 (List.replicate 101 'b')
      (computeEnd pdfDelims 1500 200 200 (List.replicate 101 'b') 0) :=
  ⟨claim_C6.1 (List.replicate 60 'a') 0 (by decide),
   claim_C6.2.1 (List.replicate 101 'b') 0 (by decide)⟩

/-- C7: with batch size 50, a run generating exactly 51 chunk records
issues exactly two `collection.add` calls: the first with the first 50
records (from inside the per-chunk loop), the second with the single
remaining record (after the loop). -/
theorem claim_C7 : ∀ (α : Type) (addFails : Nat → Bool) (records : List α),
    records.length = 51 →
    (processRecords 50 addFails records).1 = [records.take 50, records.drop 50] ∧
    ((processRecords 50 addFails records).1).map List.length = [50, 1] := by
  intro α f records hlen
  have hg : (processRecords 50 f records).1 = greedyBatches 50 records := by
    unfold processRecords
    exact loader_calls_greedy 50 f (by omega) records [] 0 (by simp)
  have h51 : records ≠ [] := by
    intro h; rw [h] at hlen; simp at hlen
  have hg1 : greedyBatches 50 records
      = records.take 50 :: greedyBatches 50 (records.drop 50) :=
    greedyBatches_cons 50 (by omega) records h51
  have hd : (records.drop 50).length = 1 := by simp [hlen]
  have hdne : records.drop 50 ≠ [] := by
    intro h; rw [h] at hd; simp at hd
  have hg2 : greedyBatches 50 (records.drop 50)
      = (records.drop 50).take 50 :: greedyBatches 50 ((records.drop 50).drop 50) :=
    greedyBatches_cons 50 (by omega) _ hdne
  have ht : (records.drop 50).take 50 = records.drop 50 :=
    List.take_of_length_le (by omega)
  have hd2 : (records.drop 50).drop 50 = [] := List.drop_eq_nil_of_le (by omega)
  have hcalls : (processRecords 50 f records).1 = [records.take 50, records.drop 50] := by
    rw [hg, hg1, hg2, ht, hd2, greedyBatches_nil]
  refine ⟨hcalls, ?_⟩
  rw [hcalls]
  simp [List.length_take, hlen, hd]

/-- C7 witness: a concrete 51-record stream produces exactly the two
calls. -/
theorem claim_C7_witness :
    (processRecords 50 (fun k => k == 0) (List.replicate 51 (0 : Nat))).1
      = [(List.replicate 51 (0 : Nat)).take 50, (List.replicate 51 (0 : Nat)).drop 50] :=
  (claim_C7 Nat (fun k => k == 0) (List.replicate 51 0) (by simp)).1

/-- C8: a raised `collection.add` is caught and the buffers cleared: the
sequence of attempted `collection.add` payloads does not depend on which
calls raise (so one batch's failure never aborts the run and later
batches proceed unchanged), the attempted payloads concatenate to exactly
the generated record stream (each record is flushed exactly once — a
failed batch is neither retried nor re-enqueued), and every failed
payload is one of the attempted payloads. -/
theorem claim_C8 : ∀ (α : Type) (batch_size : Nat)
    (addFails addFails' : Nat → Bool) (records : List α),
    (processRecords batch_size addFails records).1
      = (processRecords batch_size addFails' records).1 ∧
    ((processRecords batch_size addFails records).1).flatten = records ∧
    (∀ x ∈ (processRecords batch_size addFails records).2,
      x ∈ (processRecords batch_size addFails records).1) := by
  intro α bs f f' records
  refine ⟨loaderAux_calls_indep bs f f' records [] 0 0, ?_, ?_⟩
  · have h := loaderAux_flatten bs f records [] 0
    simpa using h
  · intro x hx
    exact loaderAux_failed_sub bs f records [] 0 x hx

/-- C8 witness: with batch size 2 over three records and the first
`collection.add` raising, the failed payload `[1, 2]` is among the
attempted calls, and the attempted calls cover all records exactly
once. -/
theorem claim_C8_witness :
    [1, 2] ∈ (processRecords 2 (fun k => k == 0) [1, 2, 3]).1 ∧
    ((processRecords 2 (fun k => k == 0) [1, 2, 3]).1).flatten = [1, 2, 3] :=
  ⟨(claim_C8 Nat 2 (fun k => k == 0) (fun _ => false) [1, 2, 3]).2.2 [1, 2] (by decide),
   (claim_C8 Nat 2 (fun k => k == 0) (fun _ => false) [1, 2, 3]).2.1⟩

/-- C9: boundary snapping moves the tentative end forward by at most the
search window (the matched delimiter lies entirely inside the window) and
trimming only shortens a chunk, so every returned chunk has length at
most `chunk_size + 150` in the HTML variant and `chunk_size + 200` in the
PDF variant. -/
theorem claim_C9 :
    (∀ (text : List Char) (chunk_size overlap : Nat) (c : List Char),
      c ∈ LegalCaseVectorDB.chunk_text text chunk_size overlap →
      c.length ≤ chunk_size + 150) ∧
    (∀ (text : List Char) (chunk_size overlap : Nat) (c : List Char),
      c ∈ FederalLawIngestion.chunk_text text chunk_size overlap →
      c.length ≤ chunk_size + 200) := by
  constructor
  · intro text cs ov c hc
    obtain ⟨st, e, rfl, -, he⟩ := chunkTextCore_mem hc
    have h1 := computeEnd_le htmlDelims cs 0 150 text st
    have h2 := sliceStrip_length_le text st e
    omega
  · intro text cs ov c hc
    obtain ⟨st, e, rfl, -, he⟩ := chunkTextCore_mem hc
    have h1 := computeEnd_le pdfDelims cs 200 200 text st
    have h2 := sliceStrip_length_le text st e
    omega

/-- C9 witness: the bound discharged at concrete runs of both variants. -/
theorem claim_C9_witness :
    (List.replicate 60 'a').length ≤ 1000 + 150 ∧
    (List.replicate 101 'b').length ≤ 1500 + 200 :=
  ⟨claim_C9.1 (List.replicate 60 'a') 1000 200 (List.replicate 60 'a') (by decide),
   claim_C9.2 (List.replicate 101 'b') 1500 300 (List.replicate 101 'b') (by decide)⟩

/-- C10: the state-folder selection of `process_all_states` never
includes an entry whose name starts with `'.'` or `'_'` or equals
`'legal_cases_chroma_db'` (the vector store's persistence directory), nor
a non-directory entry; in particular the persistence directory is never
selected, whatever the root directory contains. -/
theorem claim_C10 :
    (∀ (entries : List DirEntry) (e : DirEntry), e ∈ state_folders entries →
      pyStartsWith e.name "." = false ∧ pyStartsWith e.name "_" = false ∧
      e.name ≠ "legal_cases_chroma_db" ∧ e.isDir = true) ∧
    (∀ (entries : List DirEntry) (b : Bool),
      DirEntry.mk "legal_cases_chroma_db" b ∉ state_folders entries) := by
  have hmain : ∀ (entries : List DirEntry) (e : DirEntry), e ∈ state_folders entries →
      pyStartsWith e.name "." = false ∧ pyStartsWith e.name "_" = false ∧
      e.name ≠ "legal_cases_chroma_db" ∧ e.isDir = true := by
    intro entries e he
    obtain ⟨-, hcond⟩ := List.mem_filter.mp he
    simp only [Bool.and_eq_true, Bool.not_eq_true', beq_eq_false_iff_ne] at hcond
    exact ⟨hcond.1.1.2, hcond.1.2, hcond.2, hcond.1.1.1⟩
  refine ⟨hmain, ?_⟩
  intro entries b hmem
  have := (hmain entries (DirEntry.mk "legal_cases_chroma_db" b) hmem).2.2.1
  exact this rfl

/-- C10 witness: a concrete directory listing containing the persistence
directory, hidden and underscore entries, and a plain file, from which
only the state folder is selected. -/
theorem claim_C10_witness :
    pyStartsWith (DirEntry.mk "alabama" true).name "." = false ∧
    pyStartsWith (DirEntry.mk "alabama" true).name "_" = false ∧
    (DirEntry.mk "alabama" true).name ≠ "legal_cases_chroma_db" ∧
    (DirEntry.mk "alabama" true).isDir = true :=
  claim_C10.1
    [DirEntry.mk "alabama" true, DirEntry.mk "legal_cases_chroma_db" true,
     DirEntry.mk ".git" true, DirEntry.mk "_notes" true, DirEntry.mk "readme.txt" false]
    (DirEntry.mk "alabama" true) (by decide)

/-- RFC 1321 test vector: the MD5 of the empty message. -/
theorem md5Hex_empty : md5Hex (utf8Encode "".data) = "d41d8cd98f00b204e9800998ecf8427e" := by
  decide

/-- RFC 1321 test vector: the MD5 of `"abc"`. -/
theorem md5Hex_abc : md5Hex (utf8Encode "abc".data) = "900150983cd24fb0d6963f7d28e17f72" := by
  decide

/-- The HTML pipeline's id of a concrete chunk, equal to
`hashlib.md5("california_case.html_0".encode()).hexdigest()`. -/
theorem generate_chunk_id_example :
    LegalCaseVectorDB.generate_chunk_id "california" "case.html" 0
      = "3629ab436206386241505629f77696e6" := by
  decide
